import Mathlib

/-!
Verification of the partser parser-combinator engine
(src/node_modules/partser/index.js) against its specification.

Texts are modelled as lists of characters (`Str`), JS dynamic values as the
inductive type `Val`, and every parser behaviour as a function
`Str → Nat → E → Result` (input, cursor, environment), mirroring the
source signature `(input, i, env) => result`.  The debug-handler argument is
omitted: `parser._` only wraps `parser.behaviour` with enter/exit callbacks
and returns the behaviour result unchanged.
-/

namespace Partser

/-- A text is a list of characters, mirroring a JS string indexed per character. -/
abbrev Str := List Char

/-- Convert a Lean string literal to the character-list representation. -/
def str (s : String) : Str := s.data

/-- The single-quote character used by the source to quote literals. -/
def quoteChar : Char := '\''

/-- Wrap a text in single quotes, as the source template literal does for
the expected-description of a string parser. -/
def quote (s : Str) : Str := quoteChar :: (s ++ [quoteChar])

/-- Decimal representation of a number, as JS template interpolation produces. -/
def natToStr (n : Nat) : Str := (Nat.repr n).data

/-- JS dynamic values that flow through parse results: strings, numbers,
null, arrays, and the span objects produced by mark. -/
inductive Val : Type where
  | str : Str → Val
  | num : Nat → Val
  | nullV : Val
  | list : List Val → Val
  | span : Nat → Val → Nat → Val

/-- A parse result: `Success{status: true, index, value}` or
`Failure{status: false, index, value: [expected...]}` from the source
`makeSuccess` / `makeFailure` constructors. -/
inductive Result : Type where
  | success (index : Nat) (value : Val)
  | failure (index : Nat) (expected : List Str)

/-- The `status` field of a result. -/
def Result.isSuccess : Result → Bool
  | .success .. => true
  | .failure .. => false

/-- Source `makeSuccess`. -/
def makeSuccess (index : Nat) (value : Val) : Result := Result.success index value

/-- Source `makeFailure`: wraps the single expected description in a list. -/
def makeFailure (index : Nat) (expected : Str) : Result := Result.failure index [expected]

/-- A parser behaviour `(input, i, env) => result`, the core of the
source `Parser` value.  `E` is the caller-supplied environment type. -/
def Behaviour (E : Type) : Type := Str → Nat → E → Result

/-- Source `mergeOver(next, previous)`.  `previous` may be `undefined`
(`none`).  `furthest` of a success is `-1`, so a defined `previous` that is a
success never wins over a failure `next`; when both are failures and
`next.index` is not strictly greater, the source returns
`{status: false, index: next.index, value: next.value.concat(previous.value)}`. -/
def mergeOver : Result → Option Result → Result
  | next, none => next
  | .success i v, some _ => .success i v
  | .failure i e, some (.success ..) => .failure i e
  | .failure i e, some (.failure pi pe) =>
      if pi < i then .failure i e
      else .failure i (e ++ pe)

/-- Source `formatExpected`: a sole description is used verbatim, several are
joined after the words `one of`. -/
def formatExpected (expected : List Str) : Str :=
  match expected with
  | [e] => e
  | _ => str "one of " ++ List.intercalate (str ", ") expected

/-- Source `formatGot(input, error)` applied to a failure sitting at `index`:
either `at character i, got end of input`, or a snippet of up to 10
characters.  Note the source compares `remainingCharsInInput` against
`i + amountOfContext` when deciding whether to append the ellipsis. -/
def formatGot (input : Str) (index : Nat) : Str :=
  let whereStr := str "at character " ++ natToStr index
  if index = input.length then whereStr ++ str ", got end of input"
  else
    let amountOfContext := 10
    let remainingCharsInInput := input.length - index
    let sliced := (input.drop index).take amountOfContext
    let actualValue :=
      if remainingCharsInInput > index + amountOfContext then sliced ++ str "..."
      else sliced
    whereStr ++ str ", got " ++ [quoteChar] ++ actualValue ++ [quoteChar]

/-- Source `Partser.formatError(input, error)` applied to a failure with the
given index and expected-description list. -/
def formatError (input : Str) (index : Nat) (expected : List Str) : Str :=
  str "expected " ++ formatExpected expected ++ str " " ++ formatGot input index

/-- Source `Partser.string(str)`: compare `input.slice(i, i + len)` with the
literal; on a match consume it, otherwise fail at `i` with the quoted literal
as sole expected description. -/
def stringBehaviour {E : Type} (s : Str) : Behaviour E := fun input i _ =>
  let len := s.length
  let head := (input.drop i).take len
  if head = s then makeSuccess (i + len) (Val.str head)
  else makeFailure i (quote s)

/-- Source `Partser.eof`: fails when characters remain, otherwise succeeds
with `null` consuming nothing. -/
def eofBehaviour {E : Type} : Behaviour E := fun input i _ =>
  if i < input.length then makeFailure i (str "EOF")
  else makeSuccess i Val.nullV

/-- Source `Partser.any`: consume exactly one character. -/
def anyBehaviour {E : Type} : Behaviour E := fun input i _ =>
  if h : i < input.length then makeSuccess (i + 1) (Val.str [input.get ⟨i, h⟩])
  else makeFailure i (str "any character")

/-- Source `Partser.all`: succeed with the whole remaining input,
`input.slice(i)`, leaving the cursor at `input.length`. -/
def allBehaviour {E : Type} : Behaviour E := fun input i _ =>
  makeSuccess input.length (Val.str (input.drop i))

/-- Source `Partser.index`: succeed with the current cursor, consuming nothing. -/
def indexBehaviour {E : Type} : Behaviour E := fun _ i _ =>
  makeSuccess i (Val.num i)

/-- Source `lineAndColumnOfOffset`: 1-based line/column derived by splitting
the consumed prefix on newlines. -/
def lineAndColumnOfOffset (input : Str) (i : Nat) : Nat × Nat :=
  let lines := (input.take i).splitOn '\n'
  (lines.length, (lines.getLastD []).length + 1)

/-- Source `Partser.lcIndex`: like `index` but with line and column. -/
def lcIndexBehaviour {E : Type} : Behaviour E := fun input i _ =>
  let lc := lineAndColumnOfOffset input i
  makeSuccess i (Val.span i (Val.num lc.1) lc.2)

/-- Source `Partser.succeed(value)`. -/
def succeedBehaviour {E : Type} (v : Val) : Behaviour E := fun _ i _ =>
  makeSuccess i v

/-- Source `Partser.fail(expected)`. -/
def failBehaviour {E : Type} (expected : Str) : Behaviour E := fun _ i _ =>
  makeFailure i expected

/-- Source `Partser.test(predicate)`: consume one character when the predicate
(also given the environment) holds.  The failure description interpolates the
source text of the predicate, which is not representable here; a fixed
placeholder stands for it. -/
def testBehaviour {E : Type} (pred : Char → E → Bool) : Behaviour E := fun input i env =>
  if h : i < input.length then
    let c := input.get ⟨i, h⟩
    if pred c env then makeSuccess (i + 1) (Val.str [c])
    else makeFailure i (str "a character matching <predicate>")
  else makeFailure i (str "a character matching <predicate>")

/-- Source `Partser.regex(re, group)`, with the anchored JS regex abstracted
as a matcher on the remaining input `input.slice(i)`: it either returns the
full-match length together with the requested capture group, or no match.
On a match the cursor advances by the full-match length. -/
def regexBehaviour {E : Type} (m : Str → Option (Nat × Str)) : Behaviour E := fun input i _ =>
  match m (input.drop i) with
  | some (len, groupMatch) => makeSuccess (i + len) (Val.str groupMatch)
  | none => makeFailure i (str "<regex>")

/-- Apply the optional `chainEnv` callback of `seq`/`times` to derive the
environment for the following step. -/
def applyChainEnv {E : Type} (ce : Option (Val → E → E)) (v : Val) (env : E) : E :=
  match ce with
  | some f => f v env
  | none => env

/-- The loop of source `Partser.seq`: run each parser from the previous end
cursor, merging with `mergeOver`; return the first (merged) failure, else a
success collecting the values, merged against the last step result. -/
def seqLoop {E : Type} (input : Str) (ce : Option (Val → E → E)) :
    List (Behaviour E) → Nat → E → List Val → Option Result → Result
  | [], i, _, accum, result => mergeOver (makeSuccess i (Val.list accum)) result
  | p :: rest, i, env, accum, result =>
      match mergeOver (p input i env) result with
      | .failure j e => .failure j e
      | .success idx v =>
          seqLoop input ce rest idx (applyChainEnv ce v env) (accum ++ [v])
            (some (.success idx v))

/-- Source `Partser.seq(parsers, chainEnv)`. -/
def seqBehaviour {E : Type} (ps : List (Behaviour E)) (ce : Option (Val → E → E)) :
    Behaviour E := fun input i env =>
  seqLoop input ce ps i env [] none

/-- Source `Partser.map(parser, fn)`: failures pass through, a success value
is replaced by `fn(value, env)`. -/
def mapBehaviour {E : Type} (p : Behaviour E) (fn : Val → E → Val) : Behaviour E :=
  fun input i env =>
    match p input i env with
    | .failure j e => .failure j e
    | .success idx v => makeSuccess idx (fn v env)

/-- The destructuring `([x]) => x` used by the source `skip` helper: take the
first element of the array value. -/
def firstOfList : Val → Val
  | .list (x :: _) => x
  | _ => Val.nullV

/-- The public complete-parse entry point: the source `parser` function
evaluates `skip(parser, Partser.eof)._(input, index, env)`, where
`skip(...parsers)` is `map(seq(parsers), ([x]) => x)`. -/
def parserApply {E : Type} (b : Behaviour E) (input : Str) (env : E) (index : Nat) : Result :=
  mapBehaviour (seqBehaviour [b, eofBehaviour] none) (fun v _ => firstOfList v) input index env

/-- The loop of source `Partser.alt` after the first alternative has already
produced the running `result`: merge each further attempt over it with
`mergeOver` and stop at the first success. -/
def altRest {E : Type} (input : Str) (i : Nat) (env : E) :
    Result → List (Behaviour E) → Result
  | result, [] => result
  | result, q :: rest =>
      let r := mergeOver (q input i env) (some result)
      if r.isSuccess then r else altRest input i env r rest

/-- The behaviour of a source `Partser.alt` parser over a non-empty list of
alternatives: all attempts start from the same cursor. -/
def altBehaviour {E : Type} (p : Behaviour E) (rest : List (Behaviour E)) : Behaviour E :=
  fun input i env =>
    let r := mergeOver (p input i env) none
    if r.isSuccess then r else altRest input i env r rest

/-- Source `Partser.alt(parsers)`: an empty list raises
`TypeError: Partser.alt: Zero alternates` at construction time, before any
parser value is produced. -/
def alt {E : Type} (ps : List (Behaviour E)) : Except String (Behaviour E) :=
  match ps with
  | [] => Except.error (String.mk (str "Partser.alt: Zero alternates"))
  | p :: rest => Except.ok (altBehaviour p rest)

/-- The first loop of source `Partser.times`: require `min` successes,
counting down the remaining mandatory repetitions.  A failure here aborts the
whole combinator with the failure merged over `previousResult`; each success
updates cursor, environment (via `chainEnv`), the collected values and
`previousResult`. -/
def timesMandatory {E : Type} (p : Behaviour E) (ce : Option (Val → E → E)) (input : Str) :
    Nat → Nat → E → List Val → Option Result → Result ⊕ (Nat × E × List Val × Option Result)
  | 0, index, env, acc, prev => Sum.inr (index, env, acc, prev)
  | n + 1, index, env, acc, prev =>
      let result := p input index env
      let merged := mergeOver result prev
      match result with
      | .success idx v =>
          timesMandatory p ce input n idx (applyChainEnv ce v env) (acc ++ [v]) (some merged)
      | .failure _ _ => Sum.inl merged
/-- The second loop of source `Partser.times`: allow up to `max - min` further
successes; the first failure simply stops the loop, leaving the cursor and the
values collected so far. -/
def timesOptional {E : Type} (p : Behaviour E) (ce : Option (Val → E → E)) (input : Str) :
    Nat → Nat → E → List Val → Option Result → Nat × List Val
  | 0, index, _, acc, _ => (index, acc)
  | n + 1, index, env, acc, prev =>
      let result := p input index env
      match result with
      | .success idx v =>
          timesOptional p ce input n idx (applyChainEnv ce v env) (acc ++ [v])
            (some (mergeOver result prev))
      | .failure _ _ => (index, acc)

/-- Source `Partser.times(parser, min, max, chainEnv)` for a finite `max`
(an unbounded `max` corresponds to giving the second loop ever more fuel;
its outcome stabilises as soon as the inner parser fails once). -/
def timesBehaviour {E : Type} (p : Behaviour E) (mn mx : Nat)
    (ce : Option (Val → E → E)) : Behaviour E := fun input i env =>
  match timesMandatory p ce input mn i env [] none with
  | Sum.inl r => r
  | Sum.inr (index, env2, acc, prev) =>
      let out := timesOptional p ce input (mx - mn) index env2 acc prev
      makeSuccess out.1 (Val.list out.2)

/-- Source `Partser.desc(parser, expected)`: on failure the copied result gets
`[expected]` as its description list; the failure index is kept. -/
def descBehaviour {E : Type} (p : Behaviour E) (expected : Str) : Behaviour E :=
  fun input i env =>
    match p input i env with
    | .success idx v => .success idx v
    | .failure idx _ => .failure idx [expected]

/-- Rendering of a dynamic value inside a template literal, used by the
`except` failure message `something that is not ...`.  Strings interpolate
verbatim; other shapes are not needed by any claim and get a placeholder. -/
def valDisplay : Val → Str
  | .str s => s
  | _ => str "<value>"

/-- Source `Partser.except(allowed, forbidden)`: first try `forbidden` (fail
at the start cursor if it matches), then return the `allowed` result, turning
its failure into one at the start cursor mentioning both descriptions. -/
def exceptBehaviour {E : Type} (allowed forbidden : Behaviour E) : Behaviour E :=
  fun input i env =>
    match forbidden input i env with
    | .success _ fv =>
        makeFailure i (str "something that is not " ++ quote (valDisplay fv))
    | .failure _ fexp =>
        match allowed input i env with
        | .success idx v => .success idx v
        | .failure _ aexp =>
            makeFailure i (formatExpected aexp ++ str " (except " ++ formatExpected fexp
              ++ str ")")

/-- Source `Partser.subEnv(baseParser, deriveEnv)`: run the base parser with
the derived environment. -/
def subEnvBehaviour {E : Type} (p : Behaviour E) (derive : E → E) : Behaviour E :=
  fun input i env => p input i (derive env)

/-- Source `Partser.from(lookup)`: delegate to the parser obtained from the
environment.  Here the lookup directly yields a behaviour. -/
def fromBehaviour {E : Type} (lookup : E → Behaviour E) : Behaviour E :=
  fun input i env => lookup env input i env

/-- Source `Partser.chain(parser, lookup)`: run the parser and, on success,
delegate to the parser chosen from the value, starting at the end cursor. -/
def chainBehaviour {E : Type} (p : Behaviour E) (lookup : Val → E → Behaviour E) :
    Behaviour E := fun input i env =>
  match p input i env with
  | .failure j e => .failure j e
  | .success idx v => lookup v env input idx env

/-- The mapper of source `Partser.mark`: pack the three values of
`seq([index, parser, index])` into a `{start, value, end}` span object. -/
def markWrap : Val → Val
  | .list [.num s, v, .num e] => Val.span s v e
  | v => v

/-- Source `Partser.mark(parser)`: `seqMap(index, parser, index, ...)`. -/
def markBehaviour {E : Type} (p : Behaviour E) : Behaviour E :=
  mapBehaviour (seqBehaviour [indexBehaviour, p, indexBehaviour] none) (fun v _ => markWrap v)

/-!
Identity, clone and replace.  The source keeps each parser's behaviour in the
mutable `behaviour` property of the parser function; `Partser.replace`
assigns `original.behaviour = replacement.behaviour` and `Partser.clone`
builds a fresh parser from the current `parser.behaviour`.  A store maps
parser identities (allocation order numbers) to their current behaviour;
every invocation reads the behaviour out of the store at call time, exactly
as `parser._` reads the `behaviour` property at call time.
-/

/-- The mutable world of parser objects: behaviours indexed by identity,
plus the next fresh identity. -/
structure Store (E : Type) : Type where
  behaviours : Nat → Behaviour E
  nextId : Nat

/-- Allocate a new parser object with the given behaviour (the effect of any
parser constructor, e.g. `Partser.string` or `Partser.custom`). -/
def Store.alloc {E : Type} (st : Store E) (b : Behaviour E) : Nat × Store E :=
  (st.nextId,
   { behaviours := fun k => if k = st.nextId then b else st.behaviours k,
     nextId := st.nextId + 1 })

/-- Source `Partser.clone(parser)`: `Partser.custom(parser.behaviour)` — a
fresh identity is allocated carrying a snapshot of the current behaviour. -/
def Store.clone {E : Type} (st : Store E) (p : Nat) : Nat × Store E :=
  st.alloc (st.behaviours p)

/-- Source `Partser.replace(original, replacement)`:
`original.behaviour = replacement.behaviour`, in place; identities are
untouched. -/
def Store.replace {E : Type} (st : Store E) (original replacement : Nat) : Store E :=
  { behaviours := fun k => if k = original then st.behaviours replacement
                           else st.behaviours k,
    nextId := st.nextId }

/-- Invoke a stored parser through the public complete-parse entry point; the
behaviour is read from the store at call time. -/
def Store.call {E : Type} (st : Store E) (p : Nat) (input : Str) (env : E) : Result :=
  parserApply (st.behaviours p) input env 0

/-!
A deep embedding of the parsers one can build from the library primitives and
combinators, used to state the cursor invariant.  Dynamically supplied
behaviours — `custom` implementations, and the parsers produced by the
lookup functions of `from` and `chain` — appear as raw behaviour functions,
for which the invariant has to be assumed, as the specification does.
-/

mutual
/-- Parsers built from the library primitives and combinators.  `altP` is
shaped as head-plus-rest because `Partser.alt` rejects an empty list at
construction time. -/
inductive Grammar (E : Type) : Type 1 where
  | anyP : Grammar E
  | allP : Grammar E
  | eofP : Grammar E
  | indexP : Grammar E
  | lcIndexP : Grammar E
  | stringP (s : Str) : Grammar E
  | regexP (m : Str → Option (Nat × Str)) : Grammar E
  | testP (pred : Char → E → Bool) : Grammar E
  | succeedP (v : Val) : Grammar E
  | failP (d : Str) : Grammar E
  | customP (b : Behaviour E) : Grammar E
  | fromP (lookup : E → Behaviour E) : Grammar E
  | chainP (p : Grammar E) (lookup : Val → E → Behaviour E) : Grammar E
  | seqP (ps : GrammarList E) (ce : Option (Val → E → E)) : Grammar E
  | altP (first : Grammar E) (rest : GrammarList E) : Grammar E
  | timesP (p : Grammar E) (mn mx : Nat) (ce : Option (Val → E → E)) : Grammar E
  | mapP (p : Grammar E) (f : Val → E → Val) : Grammar E
  | descP (p : Grammar E) (d : Str) : Grammar E
  | markP (p : Grammar E) : Grammar E
  | exceptP (allowed forbidden : Grammar E) : Grammar E
  | subEnvP (p : Grammar E) (derive : E → E) : Grammar E
/-- A list of grammar parsers (the argument of `seq` and `alt`). -/
inductive GrammarList (E : Type) : Type 1 where
  | nil : GrammarList E
  | cons (p : Grammar E) (rest : GrammarList E) : GrammarList E
end

mutual
/-- The behaviour each grammar denotes, combinator by combinator. -/
def denote {E : Type} : Grammar E → Behaviour E
  | .anyP => anyBehaviour
  | .allP => allBehaviour
  | .eofP => eofBehaviour
  | .indexP => indexBehaviour
  | .lcIndexP => lcIndexBehaviour
  | .stringP s => stringBehaviour s
  | .regexP m => regexBehaviour m
  | .testP pred => testBehaviour pred
  | .succeedP v => succeedBehaviour v
  | .failP d => failBehaviour d
  | .customP b => b
  | .fromP lookup => fromBehaviour lookup
  | .chainP p lookup => chainBehaviour (denote p) lookup
  | .seqP ps ce => seqBehaviour (denoteList ps) ce
  | .altP p rest => altBehaviour (denote p) (denoteList rest)
  | .timesP p mn mx ce => timesBehaviour (denote p) mn mx ce
  | .mapP p f => mapBehaviour (denote p) f
  | .descP p d => descBehaviour (denote p) d
  | .markP p => markBehaviour (denote p)
  | .exceptP a f => exceptBehaviour (denote a) (denote f)
  | .subEnvP p derive => subEnvBehaviour (denote p) derive
/-- Denote every parser of a grammar list. -/
def denoteList {E : Type} : GrammarList E → List (Behaviour E)
  | .nil => []
  | .cons p rest => denote p :: denoteList rest
end

/-- The cursor invariant for one behaviour: started inside the input, a
success neither moves the cursor backwards nor beyond the end of input. -/
def BoundedProgress {E : Type} (b : Behaviour E) : Prop :=
  ∀ input i env idx v, i ≤ input.length → b input i env = Result.success idx v →
    i ≤ idx ∧ idx ≤ input.length

mutual
/-- The assumptions the specification makes about dynamically supplied code:
custom behaviours and the parsers looked up by `from` and `chain` satisfy the
cursor invariant, and the abstract regex matcher never consumes more than the
remaining input. -/
def ExternalsOk {E : Type} : Grammar E → Prop
  | .anyP => True
  | .allP => True
  | .eofP => True
  | .indexP => True
  | .lcIndexP => True
  | .stringP _ => True
  | .regexP m => ∀ s n g, m s = some (n, g) → n ≤ s.length
  | .testP _ => True
  | .succeedP _ => True
  | .failP _ => True
  | .customP b => BoundedProgress b
  | .fromP lookup => ∀ env, BoundedProgress (lookup env)
  | .chainP p lookup => ExternalsOk p ∧ ∀ v env, BoundedProgress (lookup v env)
  | .seqP ps _ => ExternalsOkList ps
  | .altP p rest => ExternalsOk p ∧ ExternalsOkList rest
  | .timesP p _ _ _ => ExternalsOk p
  | .mapP p _ => ExternalsOk p
  | .descP p _ => ExternalsOk p
  | .markP p => ExternalsOk p
  | .exceptP a f => ExternalsOk a ∧ ExternalsOk f
  | .subEnvP p _ => ExternalsOk p
/-- `ExternalsOk` for every member of a grammar list. -/
def ExternalsOkList {E : Type} : GrammarList E → Prop
  | .nil => True
  | .cons p rest => ExternalsOk p ∧ ExternalsOkList rest
end

/-!
The clone-then-replace scenario of the specification:
`p = string("a")`, `c = clone(p)`, `replace(p, string("b"))`.
`storeStart` is the empty world; ids are allocated in program order, so
`p` gets id 0, the clone id 1, and the replacement source `string("b")` id 2.
-/

/-- The world before any parser is constructed; unallocated identities carry
an arbitrary behaviour that never matches. -/
def storeStart : Store Unit :=
  { behaviours := fun _ => failBehaviour (str "unallocated"), nextId := 0 }

/-- The world after `p = string("a")`; `p` has id 0. -/
def storeP : Store Unit := (storeStart.alloc (stringBehaviour (str "a"))).2

/-- The world after `c = clone(p)`; `c` has id 1. -/
def storePC : Store Unit := (storeP.clone 0).2

/-- The world after constructing the replacement source `string("b")`,
which has id 2. -/
def storePCQ : Store Unit := (storePC.alloc (stringBehaviour (str "b"))).2

/-- The world after `replace(p, string("b"))`. -/
def storeFinal : Store Unit := storePCQ.replace 0 2

/-! Helper lemmas about `mergeOver`. -/

/-- A success always wins a merge outright. -/
theorem mergeOver_success (i : Nat) (v : Val) (prev : Option Result) :
    mergeOver (Result.success i v) prev = Result.success i v := by
  cases prev <;> rfl

/-- Merging over an absent or successful previous result is the identity:
this is the only way `mergeOver` is ever reached from the success track of
`seq` and `times`. -/
theorem mergeOver_prev_ok (r : Result) (prev : Option Result)
    (h : ∀ x, prev = some x → x.isSuccess = true) : mergeOver r prev = r := by
  cases prev with
  | none => cases r <;> rfl
  | some x =>
      cases x with
      | success j w => cases r <;> rfl
      | failure j e => simp [Result.isSuccess] at h
        -- h : failure.isSuccess = true is absurd

/-- A merged result is a success exactly when the new result is, and then it
is the new result itself. -/
theorem mergeOver_success_elim (r : Result) (prev : Option Result) (idx : Nat) (v : Val)
    (h : mergeOver r prev = Result.success idx v) : r = Result.success idx v := by
  cases r with
  | success j w => rw [mergeOver_success] at h; exact h
  | failure j e =>
      cases prev with
      | none => simp [mergeOver] at h
      | some x =>
          cases x with
          | success k w => simp [mergeOver] at h
          | failure k e2 =>
              by_cases hk : k < j <;> simp [mergeOver, hk] at h

/-- C1: on two failures where the next index (0) is not strictly greater
than the previous index (5), the source `mergeOver` keeps the NEXT failure
index, not the previous one as specified: the merged failure sits at index 0
although the previous failure had reached index 5.  The expected-description
lists are concatenated next-before-previous as specified.  The third and
fourth conjuncts show the divergence end to end: in
`alt([seq([string("ab"), string("c")]), string("x")])` on `"abz"` the first
alternative fails at index 2, yet the combined failure is reported at
index 0. -/
theorem mergeOver_keeps_next_index_eval :
    mergeOver (Result.failure 0 [str "x"]) (some (Result.failure 5 [str "y"]))
      = Result.failure 0 [str "x", str "y"]
  ∧ mergeOver (Result.failure 0 [str "x"]) (some (Result.failure 5 [str "y"]))
      ≠ Result.failure 5 [str "x", str "y"]
  ∧ seqBehaviour [stringBehaviour (str "ab"), stringBehaviour (str "c")] none
      (str "abz") 0 () = Result.failure 2 [quote (str "c")]
  ∧ altBehaviour
      (seqBehaviour [stringBehaviour (str "ab"), stringBehaviour (str "c")] none)
      [stringBehaviour (str "x")] (str "abz") 0 ()
      = Result.failure 0 [quote (str "x"), quote (str "c")] := by
  refine ⟨rfl, ?_, rfl, rfl⟩
  intro h
  exact absurd (congrArg (fun r => match r with | Result.failure i _ => i | _ => 0) h)
    (by decide)

/-- C3: `formatError` output shape, evaluated where the ellipsis rule
diverges from the specification.  On the 12-character input
`abcdefghijkl` with failure index 1, eleven characters remain (more than
10), the snippet is truncated to `bcdefghijk`, yet no `...` is appended,
because the source compares the remaining count against
`index + amountOfContext` instead of `amountOfContext`.  At failure index 0
the ellipsis does appear as specified. -/
theorem formatError_ellipsis_eval :
    (str "abcdefghijkl").length - 1 = 11
  ∧ formatError (str "abcdefghijkl") 1 [quote (str "q")]
      = str "expected " ++ quote (str "q") ++ str " at character 1, got "
        ++ quote (str "bcdefghijk")
  ∧ formatError (str "abcdefghijkl") 0 [quote (str "q")]
      = str "expected " ++ quote (str "q") ++ str " at character 0, got "
        ++ quote (str "abcdefghij...")
  ∧ formatError (str "c") 0 [quote (str "b"), quote (str "a")]
      = str "expected one of " ++ quote (str "b") ++ str ", " ++ quote (str "a")
        ++ str " at character 0, got " ++ quote (str "c") := by
  refine ⟨by decide, by decide, by decide, by decide⟩

/-- C6: `alt` on the empty list is a construction-time error (an `Except`
error value here, a thrown `TypeError` in the source), never a `Failure`
result.  With alternatives present it merges attempts with `mergeOver`; the
evaluation shows the combined failure of
`alt([seq([string("ab"), string("c")]), string("x")])` on `"abz"`: the first
alternative fails furthest (index 2), but the combined failure is reported
at index 0 — the furthest failure does not win, diverging from the claim. -/
theorem alt_empty_and_merge_eval :
    alt ([] : List (Behaviour Unit))
      = Except.error (String.mk (str "Partser.alt: Zero alternates"))
  ∧ seqBehaviour [stringBehaviour (str "ab"), stringBehaviour (str "c")] none
      (str "abz") 0 () = Result.failure 2 [quote (str "c")]
  ∧ altBehaviour
      (seqBehaviour [stringBehaviour (str "ab"), stringBehaviour (str "c")] none)
      [stringBehaviour (str "x")] (str "abz") 0 ()
      = Result.failure 0 [quote (str "x"), quote (str "c")]
  ∧ altBehaviour (stringBehaviour (str "a")) [stringBehaviour (str "b")]
      (str "b") 0 () = Result.success 1 (Val.str (str "b")) :=
  ⟨rfl, rfl, rfl, rfl⟩

/-- C7: the clone-then-replace scenario.  After `p = string("a")`,
`c = clone(p)` and `replace(p, string("b"))`: the complete parse `p("b")`
succeeds (every reference to `p` sees the new behaviour), `c("a")` succeeds
and `c("b")` fails (the clone is a snapshot of the old behaviour).  The two
final conjuncts are the general frame facts: after `replace(o, r)` identity
`o` carries `r`'s behaviour and every other identity is untouched. -/
theorem clone_replace_spec :
    storeFinal.call 0 (str "b") () = Result.success 1 (Val.str (str "b"))
  ∧ storeFinal.call 1 (str "a") () = Result.success 1 (Val.str (str "a"))
  ∧ storeFinal.call 1 (str "b") () = Result.failure 0 [quote (str "a")]
  ∧ (∀ (E : Type) (st : Store E) (o rp : Nat),
      ((st.replace o rp).behaviours o) = st.behaviours rp)
  ∧ (∀ (E : Type) (st : Store E) (o rp k : Nat), k ≠ o →
      ((st.replace o rp).behaviours k) = st.behaviours k) := by
  refine ⟨rfl, rfl, rfl, ?_, ?_⟩
  · intro E st o rp
    simp [Store.replace]
  · intro E st o rp k hk
    simp [Store.replace, hk]

/-- C7 witness: the clone (id 1) is unaffected by replacing id 0 in the
final scenario store. -/
theorem clone_replace_spec_witness :
    (1 : Nat) ≠ 0 ∧ (storePCQ.replace 0 2).behaviours 1 = storePCQ.behaviours 1 :=
  ⟨by decide, clone_replace_spec.2.2.2.2 Unit storePCQ 0 2 1 (by decide)⟩

/-- C8: mapping with the identity function changes nothing: `map(p, id)`
returns, for every parser behaviour, input, start index and environment,
exactly the result `p` returns — failures pass through and a success keeps
its index and value. -/
theorem map_identity_spec (E : Type) (p : Behaviour E) (input : Str) (i : Nat) (env : E) :
    mapBehaviour p (fun v _ => v) input i env = p input i env := by
  unfold mapBehaviour
  cases h : p input i env <;> simp [makeSuccess]

/-- C10: the empty-string parser: for every input, environment and start
index inside the input, the behaviour of `string("")` succeeds with value
`""` at the unchanged index — it never fails, so the failure branch of the
`string(s)` contract is vacuous at `s = ""`. -/
theorem emptyString_always_succeeds (E : Type) (env : E) (input : Str) (i : Nat)
    (_h : i ≤ input.length) :
    stringBehaviour [] input i env = Result.success i (Val.str []) := by
  unfold stringBehaviour
  simp [makeSuccess]

/-- A merge whose new result is a failure is never a success. -/
theorem mergeOver_failure_isSuccess (j : Nat) (e : List Str) (prev : Option Result) :
    (mergeOver (Result.failure j e) prev).isSuccess = false := by
  cases prev with
  | none => rfl
  | some x =>
      cases x with
      | success k w => rfl
      | failure k e2 => by_cases hk : k < j <;> simp [mergeOver, hk, Result.isSuccess]

/-- Inside the mandatory loop of `times` the running `previousResult` is
always absent or a success, so a failing attempt aborts with exactly the raw
failure the inner parser produced (the merge with the previous result is the
identity). -/
theorem timesMandatory_failure_is_raw (E : Type) (p : Behaviour E)
    (ce : Option (Val → E → E)) (input : Str) :
    ∀ (fuel index : Nat) (env : E) (acc : List Val) (prev : Option Result) (r : Result),
      (∀ x, prev = some x → x.isSuccess = true) →
      timesMandatory p ce input fuel index env acc prev = Sum.inl r →
      (∃ j e2, p input j e2 = r) ∧ r.isSuccess = false := by
  intro fuel
  induction fuel with
  | zero =>
      intro index env acc prev r hprev h
      simp [timesMandatory] at h
  | succ n ih =>
      intro index env acc prev r hprev h
      cases hp : p input index env with
      | success idx v =>
          simp only [timesMandatory, hp] at h
          refine ih idx (applyChainEnv ce v env) (acc ++ [v])
            (some (mergeOver (Result.success idx v) prev)) r ?_ h
          intro x hx
          rw [mergeOver_success] at hx
          cases hx
          rfl
      | failure j e =>
          simp only [timesMandatory, hp] at h
          rw [mergeOver_prev_ok _ _ hprev] at h
          cases h
          exact ⟨⟨index, env, hp⟩, rfl⟩

/-! Bounded-progress lemmas: each library behaviour, started inside the
input, moves the cursor neither backwards nor past the end on success. -/

/-- `string(s)` bounded progress. -/
theorem stringBehaviour_bp (E : Type) (s : Str) :
    BoundedProgress (stringBehaviour (E := E) s) := by
  intro input i env idx v hle h
  unfold stringBehaviour at h
  by_cases hc : (input.drop i).take s.length = s
  · simp only [hc, if_pos, makeSuccess, Result.success.injEq] at h
    obtain ⟨h1, _⟩ := h
    have htk := List.length_take s.length (input.drop i)
    rw [hc] at htk
    have hlen : s.length ≤ (input.drop i).length := by
      rw [htk]; exact Nat.min_le_right _ _
    have hdrop : (input.drop i).length = input.length - i := List.length_drop i input
    omega
  · simp [hc, makeFailure] at h

/-- `eof` bounded progress. -/
theorem eofBehaviour_bp (E : Type) : BoundedProgress (eofBehaviour (E := E)) := by
  intro input i env idx v hle h
  unfold eofBehaviour at h
  by_cases hlt : i < input.length
  · simp [hlt, makeFailure] at h
  · simp [hlt, makeSuccess] at h
    omega

/-- `any` bounded progress. -/
theorem anyBehaviour_bp (E : Type) : BoundedProgress (anyBehaviour (E := E)) := by
  intro input i env idx v hle h
  unfold anyBehaviour at h
  by_cases hlt : i < input.length
  · rw [dif_pos hlt] at h
    simp [makeSuccess] at h
    omega
  · rw [dif_neg hlt] at h
    simp [makeFailure] at h

/-- `all` bounded progress: the success index is the input length, which is
not below the start index precisely because the start index is inside the
input. -/
theorem allBehaviour_bp (E : Type) : BoundedProgress (allBehaviour (E := E)) := by
  intro input i env idx v hle h
  simp [allBehaviour, makeSuccess] at h
  omega

/-- `index` bounded progress. -/
theorem indexBehaviour_bp (E : Type) : BoundedProgress (indexBehaviour (E := E)) := by
  intro input i env idx v hle h
  simp [indexBehaviour, makeSuccess] at h
  omega

/-- `lcIndex` bounded progress. -/
theorem lcIndexBehaviour_bp (E : Type) : BoundedProgress (lcIndexBehaviour (E := E)) := by
  intro input i env idx v hle h
  simp [lcIndexBehaviour, makeSuccess] at h
  omega

/-- `succeed` bounded progress. -/
theorem succeedBehaviour_bp (E : Type) (v : Val) :
    BoundedProgress (succeedBehaviour (E := E) v) := by
  intro input i env idx w hle h
  simp [succeedBehaviour, makeSuccess] at h
  omega

/-- `fail` bounded progress (it never succeeds). -/
theorem failBehaviour_bp (E : Type) (d : Str) :
    BoundedProgress (failBehaviour (E := E) d) := by
  intro input i env idx w hle h
  simp [failBehaviour, makeFailure] at h

/-- `test` bounded progress. -/
theorem testBehaviour_bp (E : Type) (pred : Char → E → Bool) :
    BoundedProgress (testBehaviour pred) := by
  intro input i env idx v hle h
  unfold testBehaviour at h
  by_cases hlt : i < input.length
  · rw [dif_pos hlt] at h
    simp only [makeSuccess, makeFailure] at h
    split at h
    · simp only [Result.success.injEq] at h
      obtain ⟨h1, _⟩ := h
      omega
    · simp at h
  · rw [dif_neg hlt] at h
    simp [makeFailure] at h

/-- `regex` bounded progress, given that the anchored matcher never consumes
more than the remaining input. -/
theorem regexBehaviour_bp (E : Type) (m : Str → Option (Nat × Str))
    (hm : ∀ s n g, m s = some (n, g) → n ≤ s.length) :
    BoundedProgress (regexBehaviour (E := E) m) := by
  intro input i env idx v hle h
  unfold regexBehaviour at h
  cases hmm : m (input.drop i) with
  | none => rw [hmm] at h; simp [makeFailure] at h
  | some pr =>
      obtain ⟨n, g⟩ := pr
      rw [hmm] at h
      simp [makeSuccess] at h
      have := hm (input.drop i) n g hmm
      simp [List.length_drop] at this
      omega

/-- `map` preserves bounded progress. -/
theorem mapBehaviour_bp (E : Type) (p : Behaviour E) (f : Val → E → Val)
    (hp : BoundedProgress p) : BoundedProgress (mapBehaviour p f) := by
  intro input i env idx v hle h
  unfold mapBehaviour at h
  cases hr : p input i env with
  | failure j e => rw [hr] at h; simp at h
  | success j w =>
      rw [hr] at h
      simp [makeSuccess] at h
      obtain ⟨h1, _⟩ := h
      have := hp input i env j w hle hr
      omega

/-- `desc` preserves bounded progress. -/
theorem descBehaviour_bp (E : Type) (p : Behaviour E) (d : Str)
    (hp : BoundedProgress p) : BoundedProgress (descBehaviour p d) := by
  intro input i env idx v hle h
  unfold descBehaviour at h
  cases hr : p input i env with
  | failure j e => rw [hr] at h; simp at h
  | success j w =>
      rw [hr] at h
      simp at h
      obtain ⟨h1, _⟩ := h
      have := hp input i env j w hle hr
      omega

/-- `subEnv` preserves bounded progress. -/
theorem subEnvBehaviour_bp (E : Type) (p : Behaviour E) (derive : E → E)
    (hp : BoundedProgress p) : BoundedProgress (subEnvBehaviour p derive) := by
  intro input i env idx v hle h
  exact hp input i (derive env) idx v hle h

/-- `from` has bounded progress when every parser the lookup can return
does. -/
theorem fromBehaviour_bp (E : Type) (lookup : E → Behaviour E)
    (hl : ∀ env, BoundedProgress (lookup env)) :
    BoundedProgress (fromBehaviour lookup) := by
  intro input i env idx v hle h
  exact hl env input i env idx v hle h

/-- `chain` preserves bounded progress when every parser the lookup can
return has it. -/
theorem chainBehaviour_bp (E : Type) (p : Behaviour E) (lookup : Val → E → Behaviour E)
    (hp : BoundedProgress p) (hl : ∀ v env, BoundedProgress (lookup v env)) :
    BoundedProgress (chainBehaviour p lookup) := by
  intro input i env idx v hle h
  unfold chainBehaviour at h
  cases hr : p input i env with
  | failure j e => rw [hr] at h; simp at h
  | success j w =>
      rw [hr] at h
      have h1 := hp input i env j w hle hr
      have h2 := hl w env input j env idx v h1.2 h
      omega

/-- `except` preserves bounded progress: its only success is the verbatim
success of the allowed parser. -/
theorem exceptBehaviour_bp (E : Type) (allowed forbidden : Behaviour E)
    (ha : BoundedProgress allowed) : BoundedProgress (exceptBehaviour allowed forbidden) := by
  intro input i env idx v hle h
  unfold exceptBehaviour at h
  cases hf : forbidden input i env with
  | success j w => rw [hf] at h; simp [makeFailure] at h
  | failure j e =>
      rw [hf] at h
      cases hal : allowed input i env with
      | success k w =>
          rw [hal] at h
          simp at h
          obtain ⟨h1, _⟩ := h
          have := ha input i env k w hle hal
          omega
      | failure k e2 => rw [hal] at h; simp [makeFailure] at h

/-- The `seq` loop preserves bounded progress across all remaining steps. -/
theorem seqLoop_bp (E : Type) (input : Str) (ce : Option (Val → E → E)) :
    ∀ (ps : List (Behaviour E)) (i : Nat) (env : E) (acc : List Val)
      (prev : Option Result) (idx : Nat) (v : Val),
      (∀ b ∈ ps, BoundedProgress b) → i ≤ input.length →
      (∀ x, prev = some x → x.isSuccess = true) →
      seqLoop input ce ps i env acc prev = Result.success idx v →
      i ≤ idx ∧ idx ≤ input.length := by
  intro ps
  induction ps with
  | nil =>
      intro i env acc prev idx v hbp hle hprev h
      simp only [seqLoop, makeSuccess] at h
      rw [mergeOver_success] at h
      simp only [Result.success.injEq] at h
      omega
  | cons p rest ih =>
      intro i env acc prev idx v hbp hle hprev h
      simp only [seqLoop] at h
      rw [mergeOver_prev_ok _ _ hprev] at h
      cases hr : p input i env with
      | failure j e => rw [hr] at h; simp at h
      | success j w =>
          rw [hr] at h
          simp only [] at h
          have hj := hbp p (List.mem_cons_self p rest) input i env j w hle hr
          have hrec := ih j (applyChainEnv ce w env) (acc ++ [w])
            (some (Result.success j w)) idx v
            (fun b hb => hbp b (List.mem_cons_of_mem p hb)) (by omega)
            (by intro x hx; cases hx; rfl) h
          omega

/-- `seq` preserves bounded progress. -/
theorem seqBehaviour_bp (E : Type) (ps : List (Behaviour E)) (ce : Option (Val → E → E))
    (hbp : ∀ b ∈ ps, BoundedProgress b) : BoundedProgress (seqBehaviour ps ce) := by
  intro input i env idx v hle h
  exact seqLoop_bp E input ce ps i env [] none idx v hbp hle
    (fun x hx => Option.noConfusion hx) h

/-- `mark` preserves bounded progress. -/
theorem markBehaviour_bp (E : Type) (p : Behaviour E) (hp : BoundedProgress p) :
    BoundedProgress (markBehaviour p) := by
  unfold markBehaviour
  refine mapBehaviour_bp E _ _ (seqBehaviour_bp E _ none ?_)
  intro b hb
  simp only [List.mem_cons, List.not_mem_nil, or_false] at hb
  rcases hb with hb | hb | hb
  · rw [hb]; exact indexBehaviour_bp E
  · rw [hb]; exact hp
  · rw [hb]; exact indexBehaviour_bp E

/-- The `alt` loop after the first alternative preserves bounded progress:
its only successes are verbatim successes of one of the alternatives. -/
theorem altRest_bp (E : Type) (input : Str) (i : Nat) (env : E) :
    ∀ (rest : List (Behaviour E)) (r0 : Result),
      (∀ b ∈ rest, BoundedProgress b) → i ≤ input.length → r0.isSuccess = false →
      ∀ idx v, altRest input i env r0 rest = Result.success idx v →
      i ≤ idx ∧ idx ≤ input.length := by
  intro rest
  induction rest with
  | nil =>
      intro r0 hbp hle hr0 idx v h
      simp only [altRest] at h
      rw [h] at hr0
      simp [Result.isSuccess] at hr0
  | cons q rest ih =>
      intro r0 hbp hle hr0 idx v h
      simp only [altRest] at h
      cases hq : q input i env with
      | success j w =>
          rw [hq, mergeOver_success] at h
          simp [Result.isSuccess] at h
          obtain ⟨h1, _⟩ := h
          have := hbp q (List.mem_cons_self q rest) input i env j w hle hq
          omega
      | failure j e =>
          rw [hq] at h
          rw [if_neg (by simp [mergeOver_failure_isSuccess])] at h
          exact ih (mergeOver (Result.failure j e) (some r0))
            (fun b hb => hbp b (List.mem_cons_of_mem q hb)) hle
            (mergeOver_failure_isSuccess j e (some r0)) idx v h

/-- `alt` preserves bounded progress. -/
theorem altBehaviour_bp (E : Type) (p : Behaviour E) (rest : List (Behaviour E))
    (hp : BoundedProgress p) (hrest : ∀ b ∈ rest, BoundedProgress b) :
    BoundedProgress (altBehaviour p rest) := by
  intro input i env idx v hle h
  unfold altBehaviour at h
  cases hr : p input i env with
  | success j w =>
      rw [hr, mergeOver_success] at h
      simp [Result.isSuccess] at h
      obtain ⟨h1, _⟩ := h
      have := hp input i env j w hle hr
      omega
  | failure j e =>
      rw [hr] at h
      rw [if_neg (by simp [mergeOver_failure_isSuccess])] at h
      exact altRest_bp E input i env rest (mergeOver (Result.failure j e) none)
        hrest hle (mergeOver_failure_isSuccess j e none) idx v h

/-- The mandatory loop of `times` keeps the cursor inside the input and never
moves it backwards. -/
theorem timesMandatory_bp (E : Type) (p : Behaviour E) (ce : Option (Val → E → E))
    (input : Str) (hp : BoundedProgress p) :
    ∀ (fuel index : Nat) (env : E) (acc : List Val) (prev : Option Result) st,
      index ≤ input.length →
      timesMandatory p ce input fuel index env acc prev = Sum.inr st →
      index ≤ st.1 ∧ st.1 ≤ input.length := by
  intro fuel
  induction fuel with
  | zero =>
      intro index env acc prev st hle h
      simp only [timesMandatory, Sum.inr.injEq] at h
      rw [← h]
      exact ⟨Nat.le_refl _, hle⟩
  | succ n ih =>
      intro index env acc prev st hle h
      cases hr : p input index env with
      | success j w =>
          simp only [timesMandatory, hr] at h
          have hj := hp input index env j w hle hr
          have := ih j (applyChainEnv ce w env) (acc ++ [w]) _ st (by omega) h
          omega
      | failure j e => simp [timesMandatory, hr] at h

/-- The optional loop of `times` keeps the cursor inside the input and never
moves it backwards. -/
theorem timesOptional_bp (E : Type) (p : Behaviour E) (ce : Option (Val → E → E))
    (input : Str) (hp : BoundedProgress p) :
    ∀ (fuel index : Nat) (env : E) (acc : List Val) (prev : Option Result),
      index ≤ input.length →
      index ≤ (timesOptional p ce input fuel index env acc prev).1
      ∧ (timesOptional p ce input fuel index env acc prev).1 ≤ input.length := by
  intro fuel
  induction fuel with
  | zero =>
      intro index env acc prev hle
      simp only [timesOptional]
      exact ⟨Nat.le_refl _, hle⟩
  | succ n ih =>
      intro index env acc prev hle
      cases hr : p input index env with
      | success j w =>
          simp only [timesOptional, hr]
          have hj := hp input index env j w hle hr
          have := ih j (applyChainEnv ce w env) (acc ++ [w])
            (some (mergeOver (Result.success j w) prev)) (by omega)
          constructor <;> omega
      | failure j e =>
          simp only [timesOptional, hr]
          exact ⟨Nat.le_refl _, hle⟩

/-- `times` preserves bounded progress. -/
theorem timesBehaviour_bp (E : Type) (p : Behaviour E) (mn mx : Nat)
    (ce : Option (Val → E → E)) (hp : BoundedProgress p) :
    BoundedProgress (timesBehaviour p mn mx ce) := by
  intro input i env idx v hle h
  unfold timesBehaviour at h
  cases hm : timesMandatory p ce input mn i env [] none with
  | inl r =>
      rw [hm] at h
      simp only [] at h
      obtain ⟨_, hfalse⟩ := timesMandatory_failure_is_raw E p ce input mn i env [] none r
        (fun x hx => Option.noConfusion hx) hm
      rw [h] at hfalse
      simp [Result.isSuccess] at hfalse
  | inr st =>
      obtain ⟨index, env2, acc, prev⟩ := st
      rw [hm] at h
      simp only [makeSuccess, Result.success.injEq] at h
      obtain ⟨h1, _⟩ := h
      have hmand := timesMandatory_bp E p ce input hp mn i env [] none
        (index, env2, acc, prev) hle hm
      have hopt := timesOptional_bp E p ce input hp (mx - mn) index env2 acc prev
        (by exact hmand.2)
      omega


/-- One successful step of the optional loop of `times`. -/
theorem timesOptional_step (E : Type) (p : Behaviour E) (ce : Option (Val → E → E))
    (input : Str) (n index : Nat) (env : E) (acc : List Val) (prev : Option Result)
    (idx : Nat) (v : Val) (h : p input index env = Result.success idx v) :
    timesOptional p ce input (Nat.succ n) index env acc prev
      = timesOptional p ce input n idx (applyChainEnv ce v env) (acc ++ [v])
          (some (Result.success idx v)) := by
  simp only [timesOptional, h]
  rw [mergeOver_success]

/-- The optional loop of `times` stops immediately, keeping cursor and
collected values, when the inner parser fails. -/
theorem timesOptional_stops (E : Type) (p : Behaviour E) (ce : Option (Val → E → E))
    (input : Str) (fuel index : Nat) (env : E) (acc : List Val) (prev : Option Result)
    (h : (p input index env).isSuccess = false) :
    timesOptional p ce input fuel index env acc prev = (index, acc) := by
  cases fuel with
  | zero => rfl
  | succ n =>
      cases hp : p input index env with
      | success idx v => rw [hp] at h; simp [Result.isSuccess] at h
      | failure j e => simp [timesOptional, hp]

/-- C4: `times(p, min, max)`.  A failure of the whole combinator can only
come from the mandatory phase and is exactly the failure `p` produced there
(its merge with the previous attempt is the identity, the previous attempt
being a success); once `min` successes are reached the combinator always
succeeds with the collected values — a later failure is not propagated.
Concretely for `times(string("A"), 2, max)`: on `"A"` it fails at index 1
expecting the quoted literal, for every `max`; on `"AA"` it succeeds with two
values at index 2, for every `max`; and on `"AAAAA"` with `max ≥ 5` (any
finite stand-in for infinity past the stabilisation point) it succeeds with
five values at index 5. -/
theorem times_spec :
    (∀ (E : Type) (p : Behaviour E) (ce : Option (Val → E → E)) (input : Str)
        (mn mx i : Nat) (env : E) (r : Result),
      timesBehaviour p mn mx ce input i env = r → r.isSuccess = false →
      timesMandatory p ce input mn i env [] none = Sum.inl r ∧ ∃ j e2, p input j e2 = r)
  ∧ (∀ (E : Type) (p : Behaviour E) (ce : Option (Val → E → E)) (input : Str)
        (mn mx i : Nat) (env : E) st,
      timesMandatory p ce input mn i env [] none = Sum.inr st →
      ∃ idx vs, timesBehaviour p mn mx ce input i env = Result.success idx (Val.list vs))
  ∧ (∀ mx : Nat, timesBehaviour (stringBehaviour (str "A")) 2 mx none (str "A") 0 ()
      = Result.failure 1 [quote (str "A")])
  ∧ (∀ mx : Nat, timesBehaviour (stringBehaviour (str "A")) 2 mx none (str "AA") 0 ()
      = Result.success 2 (Val.list [Val.str (str "A"), Val.str (str "A")]))
  ∧ (∀ mx : Nat, 5 ≤ mx →
      timesBehaviour (stringBehaviour (str "A")) 2 mx none (str "AAAAA") 0 ()
      = Result.success 5 (Val.list [Val.str (str "A"), Val.str (str "A"),
          Val.str (str "A"), Val.str (str "A"), Val.str (str "A")])) := by
  refine ⟨?_, ?_, ?_, ?_, ?_⟩
  · intro E p ce input mn mx i env r h hfail
    cases hm : timesMandatory p ce input mn i env [] none with
    | inl r0 =>
        have hr : r0 = r := by rw [← h]; simp [timesBehaviour, hm]
        subst hr
        exact ⟨rfl,
          (timesMandatory_failure_is_raw E p ce input mn i env [] none r0
            (fun x hx => Option.noConfusion hx) hm).1⟩
    | inr st =>
        obtain ⟨index, env2, acc, prev⟩ := st
        have : r.isSuccess = true := by
          rw [← h]; simp [timesBehaviour, hm, makeSuccess, Result.isSuccess]
        rw [this] at hfail
        cases hfail
  · intro E p ce input mn mx i env st hm
    obtain ⟨index, env2, acc, prev⟩ := st
    refine ⟨(timesOptional p ce input (mx - mn) index env2 acc prev).1,
      (timesOptional p ce input (mx - mn) index env2 acc prev).2, ?_⟩
    simp [timesBehaviour, hm, makeSuccess]
  · intro mx
    rfl
  · intro mx
    have h1 : timesMandatory (stringBehaviour (str "A")) none (str "AA") 2 0 () [] none
        = Sum.inr (2, (), [Val.str (str "A"), Val.str (str "A")],
            some (Result.success 2 (Val.str (str "A")))) := rfl
    have h2 : (stringBehaviour (str "A") (str "AA") 2 ()).isSuccess = false := rfl
    simp only [timesBehaviour, h1]
    rw [timesOptional_stops Unit (stringBehaviour (str "A")) none (str "AA") (mx - 2) 2 ()
      [Val.str (str "A"), Val.str (str "A")] (some (Result.success 2 (Val.str (str "A")))) h2]
    rfl
  · intro mx hmx
    obtain ⟨k, rfl⟩ : ∃ k, mx = k + 5 := ⟨mx - 5, by omega⟩
    have h1 : timesMandatory (stringBehaviour (str "A")) none (str "AAAAA") 2 0 () [] none
        = Sum.inr (2, (), [Val.str (str "A"), Val.str (str "A")],
            some (Result.success 2 (Val.str (str "A")))) := rfl
    have hsub : k + 5 - 2 = Nat.succ (Nat.succ (Nat.succ k)) := by omega
    simp only [timesBehaviour, h1, hsub]
    rw [timesOptional_step Unit (stringBehaviour (str "A")) none (str "AAAAA")
      (Nat.succ (Nat.succ k)) 2 () _ _ 3 (Val.str (str "A")) rfl]
    rw [timesOptional_step Unit (stringBehaviour (str "A")) none (str "AAAAA")
      (Nat.succ k) 3 () _ _ 4 (Val.str (str "A")) rfl]
    rw [timesOptional_step Unit (stringBehaviour (str "A")) none (str "AAAAA")
      k 4 () _ _ 5 (Val.str (str "A")) rfl]
    rw [timesOptional_stops Unit (stringBehaviour (str "A")) none (str "AAAAA")
      k 5 () _ _ rfl]
    rfl

/-- C4 witness: `times(string("A"), 2, 5)` on `"AAAAA"`. -/
theorem times_spec_witness :
    (5 : Nat) ≤ 5
  ∧ timesBehaviour (stringBehaviour (str "A")) 2 5 none (str "AAAAA") 0 ()
      = Result.success 5 (Val.list [Val.str (str "A"), Val.str (str "A"),
          Val.str (str "A"), Val.str (str "A"), Val.str (str "A")]) :=
  ⟨by decide, times_spec.2.2.2.2 5 (by decide)⟩

/-- C2: the complete-parse entry (`skip(parser, eof)` under the hood)
succeeds exactly when the raw behaviour succeeds with its cursor at the end
of input, and then returns the raw value, discarding the end-of-input
component; a raw success short of the end becomes an `EOF` failure at the
stopping cursor, and a raw failure passes through unchanged.  Concretely,
`string("a")` as a complete parse of `"ab"` fails at index 1 although its
raw behaviour succeeds there. -/
theorem parserApply_complete_spec (E : Type) (b : Behaviour E) (input : Str) (env : E)
    (i : Nat) :
    (∀ idx v, b input i env = Result.success idx v → input.length ≤ idx →
        parserApply b input env i = Result.success idx v)
  ∧ (∀ idx v, b input i env = Result.success idx v → idx < input.length →
        parserApply b input env i = Result.failure idx [str "EOF"])
  ∧ (∀ j e, b input i env = Result.failure j e →
        parserApply b input env i = Result.failure j e)
  ∧ parserApply (stringBehaviour (str "a")) (str "ab") env 0 = Result.failure 1 [str "EOF"]
  ∧ stringBehaviour (str "a") (str "ab") 0 env = Result.success 1 (Val.str (str "a")) := by
  refine ⟨?_, ?_, ?_, rfl, rfl⟩
  · intro idx v hb hge
    have hnotlt : ¬ idx < input.length := Nat.not_lt.mpr hge
    simp [parserApply, mapBehaviour, seqBehaviour, seqLoop, hb, mergeOver,
      eofBehaviour, hnotlt, makeSuccess, applyChainEnv, firstOfList]
  · intro idx v hb hlt
    simp [parserApply, mapBehaviour, seqBehaviour, seqLoop, hb, mergeOver,
      eofBehaviour, hlt, makeSuccess, makeFailure, applyChainEnv]
  · intro j e hb
    simp [parserApply, mapBehaviour, seqBehaviour, seqLoop, hb, mergeOver]

/-- C2 witness: the concrete complete parse of `string("a")` against `"ab"`
obtained through the general implication. -/
theorem parserApply_complete_spec_witness :
    stringBehaviour (str "a") (str "ab") 0 () = Result.success 1 (Val.str (str "a"))
  ∧ (1 : Nat) < (str "ab").length
  ∧ parserApply (stringBehaviour (str "a")) (str "ab") () 0 = Result.failure 1 [str "EOF"] :=
  ⟨rfl, by decide,
    (parserApply_complete_spec Unit (stringBehaviour (str "a")) (str "ab") () 0).2.1
      1 (Val.str (str "a")) rfl (by decide)⟩

/-- C5: for every string `s`, the complete parse of `string(s)` against `s`
itself succeeds consuming everything and returning `s`; against any text not
starting with `s` it fails at the start index with the quoted literal as the
sole expected description. -/
theorem string_complete_spec (E : Type) (env : E) (s input : Str) :
    parserApply (stringBehaviour s) s env 0 = Result.success s.length (Val.str s)
  ∧ (input.take s.length ≠ s →
      parserApply (stringBehaviour s) input env 0 = Result.failure 0 [quote s]) := by
  constructor
  · have hs : stringBehaviour (E := E) s s 0 env = Result.success s.length (Val.str s) := by
      unfold stringBehaviour
      simp [makeSuccess]
    simp [parserApply, mapBehaviour, seqBehaviour, seqLoop, hs, mergeOver, eofBehaviour,
      makeSuccess, applyChainEnv, firstOfList]
  · intro hne
    have hs : stringBehaviour (E := E) s input 0 env = Result.failure 0 [quote s] := by
      unfold stringBehaviour
      simp [hne, makeFailure]
    simp [parserApply, mapBehaviour, seqBehaviour, seqLoop, hs, mergeOver]

/-- C5 witness: `string("a")` against `"a"` and against `"b"`. -/
theorem string_complete_spec_witness :
    parserApply (stringBehaviour (str "a")) (str "a") () 0
      = Result.success 1 (Val.str (str "a"))
  ∧ (str "b").take (str "a").length ≠ str "a"
  ∧ parserApply (stringBehaviour (str "a")) (str "b") () 0
      = Result.failure 0 [quote (str "a")] :=
  ⟨(string_complete_spec Unit () (str "a") (str "b")).1, by decide,
    (string_complete_spec Unit () (str "a") (str "b")).2 (by decide)⟩

/-- C10 witness: `string("")` at index 1 of the two-character input `ab`. -/
theorem emptyString_always_succeeds_witness :
    (1 : Nat) ≤ (str "ab").length
    ∧ stringBehaviour [] (str "ab") 1 () = Result.success 1 (Val.str []) :=
  ⟨by decide, emptyString_always_succeeds Unit () (str "ab") 1 (by decide)⟩

mutual
/-- Mutual induction: every grammar-built behaviour has bounded progress,
assuming the invariant for dynamically supplied behaviours. -/
theorem denote_bp_aux (E : Type) : ∀ (g : Grammar E), ExternalsOk g → BoundedProgress (denote g)
  | .anyP, _ => anyBehaviour_bp E
  | .allP, _ => allBehaviour_bp E
  | .eofP, _ => eofBehaviour_bp E
  | .indexP, _ => indexBehaviour_bp E
  | .lcIndexP, _ => lcIndexBehaviour_bp E
  | .stringP s, _ => stringBehaviour_bp E s
  | .regexP m, h => regexBehaviour_bp E m h
  | .testP pred, _ => testBehaviour_bp E pred
  | .succeedP v, _ => succeedBehaviour_bp E v
  | .failP d, _ => failBehaviour_bp E d
  | .customP _, h => h
  | .fromP lookup, h => fromBehaviour_bp E lookup h
  | .chainP p lookup, h =>
      chainBehaviour_bp E (denote p) lookup (denote_bp_aux E p h.1) h.2
  | .seqP ps ce, h => seqBehaviour_bp E (denoteList ps) ce (denoteList_bp_aux E ps h)
  | .altP p rest, h =>
      altBehaviour_bp E (denote p) (denoteList rest) (denote_bp_aux E p h.1)
        (denoteList_bp_aux E rest h.2)
  | .timesP p mn mx ce, h => timesBehaviour_bp E (denote p) mn mx ce (denote_bp_aux E p h)
  | .mapP p f, h => mapBehaviour_bp E (denote p) f (denote_bp_aux E p h)
  | .descP p d, h => descBehaviour_bp E (denote p) d (denote_bp_aux E p h)
  | .markP p, h => markBehaviour_bp E (denote p) (denote_bp_aux E p h)
  | .exceptP a f, h => exceptBehaviour_bp E (denote a) (denote f) (denote_bp_aux E a h.1)
  | .subEnvP p derive, h => subEnvBehaviour_bp E (denote p) derive (denote_bp_aux E p h)
/-- Mutual induction over grammar lists. -/
theorem denoteList_bp_aux (E : Type) : ∀ (ps : GrammarList E), ExternalsOkList ps →
    ∀ b ∈ denoteList ps, BoundedProgress b
  | .nil, _ => by
      intro b hb
      simp [denoteList] at hb
  | .cons p rest, h => by
      intro b hb
      simp only [denoteList, List.mem_cons] at hb
      cases hb with
      | inl hb => rw [hb]; exact denote_bp_aux E p h.1
      | inr hb => exact denoteList_bp_aux E rest h.2 b hb
end

/-- C9: amended cursor invariant: for every parser built from the library
primitives and combinators — with user functions pure and every dynamically
supplied behaviour (custom parsers, `from`/`chain` lookups) assumed to
satisfy the same invariant — a success of the partial-match entry started at
a cursor inside the input (`startIndex ≤ length`) has its index at or after
the start index (and still inside the input).  The restriction to in-range
start indices is forced by `all`, which jumps to `input.length` even from an
out-of-range cursor. -/
theorem builtParser_cursor_invariant (E : Type) (g : Grammar E) (hg : ExternalsOk g)
    (input : Str) (i : Nat) (env : E) (idx : Nat) (v : Val)
    (hstart : i ≤ input.length) (hrun : denote g input i env = Result.success idx v) :
    i ≤ idx ∧ idx ≤ input.length :=
  denote_bp_aux E g hg input i env idx v hstart hrun

/-- C9 counterexample to the unrestricted claim: the primitive `all`, a
library parser, started at index 1 of the empty input succeeds at index 0,
moving the cursor backwards. -/
theorem allP_moves_cursor_backwards :
    denote (Grammar.allP : Grammar Unit) [] 1 () = Result.success 0 (Val.str [])
    ∧ ¬ (1 ≤ 0) :=
  ⟨rfl, by decide⟩

/-- C9 witness: `any` on a two-character input from index 0. -/
theorem builtParser_cursor_invariant_witness : (0 : Nat) ≤ 1 ∧ (1 : Nat) ≤ 2 :=
  builtParser_cursor_invariant Unit Grammar.anyP trivial (str "ab") 0 () 1
    (Val.str (str "a")) (by decide) rfl

end Partser
